import Mathlib

/-!
Shallow embedding of the Telegram interface actor
(`src/actors/telegram_actor.py`) and proofs of the specification's
testable properties: the message splitter `_split_long_message`, the
outbound sender `_send_message`, the polling loop `_polling_loop` /
`_get_updates` cursor discipline, and the typing-task pool
`_start_typing` / `_stop_typing` / `_cleanup_typing_tasks`.

Text is modelled as `List Char` (one entry per Unicode code point, so
`List.length` agrees with Python's `len`).  Machine integers do not
overflow here (Python ints are unbounded), so ids are `Int` and sizes
are `Nat`.
-/

namespace Telegram

/-- The set of code points stripped by Python's `str.strip()`
(Unicode whitespace as recognised by `str.isspace`). -/
def pySpaceCodes : List Nat :=
  [0x09, 0x0a, 0x0b, 0x0c, 0x0d, 0x1c, 0x1d, 0x1e, 0x1f, 0x20, 0x85, 0xa0,
   0x1680, 0x2000, 0x2001, 0x2002, 0x2003, 0x2004, 0x2005, 0x2006, 0x2007,
   0x2008, 0x2009, 0x200a, 0x2028, 0x2029, 0x202f, 0x205f, 0x3000]

/-- Whether `str.strip()` removes the character `c`. -/
def isPySpace (c : Char) : Bool := pySpaceCodes.contains c.toNat

/-- Prepend a character to the first of a list of paragraphs. -/
def consHead (c : Char) : List (List Char) → List (List Char)
  | [] => [[c]]
  | p :: ps => (c :: p) :: ps

/-- Python `text.split("\n\n")`: non-overlapping, leftmost-first splitting
on the two-character separator. -/
def splitPar : List Char → List (List Char)
  | [] => [[]]
  | [c] => [[c]]
  | c :: d :: rest =>
    if c = '\n' ∧ d = '\n' then [] :: splitPar rest
    else consHead c (splitPar (d :: rest))

/-- Joining paragraphs back with the separator `"\n\n"` (the inverse
direction of `splitPar`). -/
def joinPar : List (List Char) → List Char
  | [] => []
  | [p] => p
  | p :: q :: ps => p ++ '\n' :: '\n' :: joinPar (q :: ps)

/-- Python `s.strip()`: drop whitespace from both ends. -/
def strip (l : List Char) : List Char :=
  (((l.dropWhile isPySpace).reverse).dropWhile isPySpace).reverse

/-- Accumulator state of the paragraph loop in `_split_long_message`:
the chunks emitted so far and the chunk currently being built. -/
structure SplitState where
  chunks : List (List Char)
  current : List Char
deriving DecidableEq

/-- One iteration of the `for paragraph in text.split("\n\n")` loop body
of `_split_long_message`. -/
def splitStep (maxLen : Nat) (st : SplitState) (paragraph : List Char) : SplitState :=
  if st.current.length + paragraph.length + 2 > maxLen then
    { chunks := if st.current ≠ [] then st.chunks ++ [strip st.current] else st.chunks,
      current := paragraph }
  else
    { chunks := st.chunks,
      current :=
        if st.current ≠ [] then st.current ++ '\n' :: '\n' :: paragraph
        else st.current ++ paragraph }

/-- `_split_long_message(text)`: return `[text]` when it already fits,
otherwise accumulate paragraphs into chunks, flushing (with `strip`)
whenever the next paragraph would overflow the limit. -/
def splitLongMessage (maxLen : Nat) (text : List Char) : List (List Char) :=
  if text.length ≤ maxLen then [text]
  else
    let fin := (splitPar text).foldl (splitStep maxLen) ⟨[], []⟩
    if fin.current ≠ [] then fin.chunks ++ [strip fin.current] else fin.chunks

/-- Parse mode of an outbound `sendMessage` call: the first try uses
`"Markdown"`, the retry omits `parse_mode`. -/
inductive ParseMode
  | markdown
  | plain
deriving DecidableEq

/-- One outbound `sendMessage` API call as issued by `_send_message`. -/
structure Attempt where
  chatId : Int
  text : List Char
  mode : ParseMode
deriving DecidableEq

/-- The `for chunk in chunks` loop of `_send_message`, recording every
API call attempted.  `ok` is the environment: whether a given call
succeeds.  A failed Markdown call is retried once without `parse_mode`;
a failure of the retry is only logged and the loop moves on. -/
def sendChunks (ok : Attempt → Bool) (chatId : Int) : List (List Char) → List Attempt
  | [] => []
  | chunk :: rest =>
    let rich : Attempt := ⟨chatId, chunk, .markdown⟩
    if ok rich then rich :: sendChunks ok chatId rest
    else rich :: ⟨chatId, chunk, .plain⟩ :: sendChunks ok chatId rest

/-- `_send_message(chat_id, text)`: split, then send each chunk. -/
def sendMessage (maxLen : Nat) (ok : Attempt → Bool) (chatId : Int) (text : List Char) :
    List Attempt :=
  sendChunks ok chatId (splitLongMessage maxLen text)

/-- One inbound update; only its `update_id` is inspected by the
cursor logic of `_get_updates`. -/
structure Update where
  updateId : Int
deriving DecidableEq

/-- Outcome of one `getUpdates` API call, as classified by the
`try/except` in `_get_updates` and `_polling_loop`: a successful JSON
result, an `asyncio.TimeoutError`, any other exception, or an
`asyncio.CancelledError` (which propagates past both handlers). -/
inductive FetchOutcome
  | success (updates : List Update)
  | timeout
  | failure
  | cancelled
deriving DecidableEq

/-- The offset written by `_get_updates` after a successful call:
`updates[-1]["update_id"] + 1` when the batch is non-empty, otherwise
the offset is left alone. -/
def newOffset (offset : Int) (us : List Update) : Int :=
  match us.getLast? with
  | none => offset
  | some u => u.updateId + 1

/-- Observable actions of one polling iteration, in program order. -/
inductive PollEvent
  | fetched (us : List Update)
  | cursorSet (n : Int)
  | fetchErrorLogged
  | dispatched (u : Update)
  | pollErrorLogged
  | backoffSleep (n : Nat)
deriving DecidableEq

/-- The `for update in updates` loop of `_polling_loop`; `ok` tells
whether `_process_update` returns normally.  The first exception ends
the loop body and is caught by the generic handler, which logs and
sleeps for 5 seconds. -/
def dispatchAll (ok : Update → Bool) : List Update → List PollEvent
  | [] => []
  | u :: rest =>
    if ok u then .dispatched u :: dispatchAll ok rest
    else [.pollErrorLogged, .backoffSleep 5]

/-- Result of one iteration of the `while self.is_running` loop:
the cursor afterwards, the events in order, and whether the loop
proceeds to the next iteration (`false` only for the `break` on
`asyncio.CancelledError`). -/
structure IterResult where
  offset : Int
  trace : List PollEvent
  continues : Bool
deriving DecidableEq

/-- One iteration of `_polling_loop` around `_get_updates`.  Note the
cursor assignment happens inside `_get_updates`, i.e. before any
update of the batch is dispatched. -/
def pollIteration (offset : Int) (f : FetchOutcome) (ok : Update → Bool) : IterResult :=
  match f with
  | .cancelled => ⟨offset, [], false⟩
  | .timeout => ⟨offset, [], true⟩
  | .failure => ⟨offset, [.fetchErrorLogged], true⟩
  | .success us =>
    let off := newOffset offset us
    ⟨off,
     .fetched us :: (if us.isEmpty then [] else [.cursorSet off]) ++ dispatchAll ok us,
     true⟩

/-- The batch a fetch outcome delivers to the loop body (empty for
timeout and for a swallowed failure). -/
def batchOf : FetchOutcome → List Update
  | .success us => us
  | _ => []

/-- Successive cursor values along a run of the polling loop. -/
def offsetTrace (ok : Update → Bool) (offset : Int) : List FetchOutcome → List Int
  | [] => [offset]
  | f :: fs => offset :: offsetTrace ok (pollIteration offset f ok).offset fs

/-- The remote API's offset contract along a run: every update id in a
delivered batch is at least the cursor value used to request it. -/
def envRespects (ok : Update → Bool) (offset : Int) : List FetchOutcome → Prop
  | [] => True
  | f :: fs =>
    (∀ u ∈ batchOf f, offset ≤ u.updateId) ∧
      envRespects ok (pollIteration offset f ok).offset fs

/-- The typing-task pool `self._typing_tasks`, in insertion order
(Python dicts preserve it); the `Bool` is `task.done()`. -/
abbrev TypingPool := List (Int × Bool)

/-- The keys (`chat_id`s) of the pool, in insertion order. -/
def poolKeys (pool : TypingPool) : List Int := pool.map Prod.fst

/-- `_stop_typing(chat_id)`: cancel and delete the entry if present,
no-op otherwise.  Returns the new pool and the cancelled ids. -/
def stopTyping (pool : TypingPool) (chatId : Int) : TypingPool × List Int :=
  if chatId ∈ poolKeys pool then
    (pool.filter (fun e => e.1 != chatId), [chatId])
  else (pool, [])

/-- `_cleanup_typing_tasks()`: drop every entry whose task is done
(no cancellation involved). -/
def cleanupTypingTasks (pool : TypingPool) : TypingPool :=
  pool.filter (fun e => !e.2)

/-- `max(1, len(self._typing_tasks) // 10)`: how many oldest entries a
forced eviction removes. -/
def forcedEvictCount (n : Nat) : Nat := max 1 (n / 10)

/-- Result of `_start_typing`: the pool, the cleanup counter, and every
id whose task was cancelled (by the initial stop or by eviction). -/
structure StartResult where
  pool : TypingPool
  counter : Nat
  cancelled : List Int
deriving DecidableEq

/-- The pool after the first two stages of `_start_typing`: the initial
`_stop_typing(chat_id)` and the periodic housekeeping that runs every
`K`-th call. -/
def maintainedPool (K : Nat) (pool : TypingPool) (counter : Nat) (chatId : Int) :
    TypingPool :=
  if counter + 1 ≥ K then cleanupTypingTasks (stopTyping pool chatId).1
  else (stopTyping pool chatId).1

/-- The cleanup counter after a `_start_typing` call: incremented, and
reset to zero when it reaches the threshold `K`. -/
def maintainedCounter (K counter : Nat) : Nat :=
  if counter + 1 ≥ K then 0 else counter + 1

/-- Capacity enforcement of `_start_typing`: when the pool is at or
above the cap `M`, force a cleanup sweep; if still at or above `M`,
cancel and drop the oldest `max(1, n // 10)` entries (insertion
order).  Returns the surviving pool and the evicted (cancelled) ids. -/
def enforcedPool (M : Nat) (p : TypingPool) : TypingPool × List Int :=
  if p.length ≥ M then
    let ps := cleanupTypingTasks p
    if ps.length ≥ M then
      (ps.drop (forcedEvictCount ps.length),
       (ps.take (forcedEvictCount ps.length)).map Prod.fst)
    else (ps, [])
  else (p, [])

/-- `_start_typing(chat_id)` with cleanup threshold `K` and pool cap
`M`: stop any existing task for the id, do periodic housekeeping every
`K` calls, enforce the cap, then insert the fresh (not done) task at
the end. -/
def startTyping (K M : Nat) (pool : TypingPool) (counter : Nat) (chatId : Int) :
    StartResult :=
  let p2 := maintainedPool K pool counter chatId
  let e := enforcedPool M p2
  ⟨e.1 ++ [(chatId, false)], maintainedCounter K counter,
   (stopTyping pool chatId).2 ++ e.2⟩

/-- Whether a paragraph (or chunk) is non-empty with non-whitespace
first and last characters, i.e. untouched by `strip`. -/
def cleanEnds (l : List Char) : Prop :=
  l ≠ [] ∧ (∀ c, l.head? = some c → isPySpace c = false) ∧
    (∀ c, l.getLast? = some c → isPySpace c = false)

/-- The text represented by a splitter state: its chunks followed by
the chunk under construction, all joined with the separator. -/
def render (st : SplitState) : List Char :=
  joinPar (st.chunks ++ [st.current])

/-- Whether a poll event is the cursor assignment. -/
def isCursorSet : PollEvent → Bool
  | .cursorSet _ => true
  | _ => false

/-- Whether a poll event is the dispatch of an update. -/
def isDispatched : PollEvent → Bool
  | .dispatched _ => true
  | _ => false

/-- The ordering property claimed of one polling iteration: every
cursor assignment comes after every dispatch of the batch. -/
def cursorAfterDispatch (tr : List PollEvent) : Prop :=
  ∀ i j : Fin tr.length,
    isCursorSet (tr.get i) = true → isDispatched (tr.get j) = true →
      (j : Nat) < (i : Nat)

theorem consHead_ne_nil (c : Char) (l : List (List Char)) : consHead c l ≠ [] := by
  cases l <;> simp [consHead]

/-- Splitting always yields at least one paragraph. -/
theorem splitPar_ne_nil (l : List Char) : splitPar l ≠ [] := by
  induction l using splitPar.induct with
  | case1 => simp [splitPar]
  | case2 c => simp [splitPar]
  | case3 c d rest h ih => simp [splitPar, h]
  | case4 c d rest h ih => simp only [splitPar, if_neg h]; exact consHead_ne_nil _ _

theorem joinPar_cons (x : List Char) (l : List (List Char)) (h : l ≠ []) :
    joinPar (x :: l) = x ++ '\n' :: '\n' :: joinPar l := by
  cases l with
  | nil => exact absurd rfl h
  | cons q qs => rfl

theorem joinPar_consHead (c : Char) (l : List (List Char)) (h : l ≠ []) :
    joinPar (consHead c l) = c :: joinPar l := by
  cases l with
  | nil => exact absurd rfl h
  | cons p ps =>
    cases ps with
    | nil => rfl
    | cons q qs => rfl

/-- Joining the split paragraphs with the separator is the identity. -/
theorem joinPar_splitPar (l : List Char) : joinPar (splitPar l) = l := by
  induction l using splitPar.induct with
  | case1 => rfl
  | case2 c => rfl
  | case3 c d rest h ih =>
    obtain ⟨rfl, rfl⟩ := h
    rw [show splitPar ('\n' :: '\n' :: rest) = [] :: splitPar rest by
          simp [splitPar],
        joinPar_cons _ _ (splitPar_ne_nil rest), ih]
    rfl
  | case4 c d rest h ih =>
    rw [show splitPar (c :: d :: rest) = consHead c (splitPar (d :: rest)) by
          simp [splitPar, if_neg h],
        joinPar_consHead _ _ (splitPar_ne_nil _), ih]

/-- Stripping never lengthens a string. -/
theorem strip_length_le (l : List Char) : (strip l).length ≤ l.length := by
  have h1 := (List.dropWhile_sublist (l := (l.dropWhile isPySpace).reverse) isPySpace).length_le
  have h2 := (List.dropWhile_sublist (l := l) isPySpace).length_le
  unfold strip
  simp only [List.length_reverse] at *
  omega

theorem dropWhile_cons_of_neg {p : Char → Bool} {c : Char} {t : List Char}
    (h : p c = false) : (c :: t).dropWhile p = c :: t := by
  simp [List.dropWhile_cons, h]

theorem dropWhile_eq_self_of_length {p : Char → Bool} {l : List Char}
    (h : (l.dropWhile p).length = l.length) : l.dropWhile p = l := by
  cases l with
  | nil => rfl
  | cons a t =>
    by_cases hp : p a = true
    · exfalso
      have hle := (List.dropWhile_sublist (l := t) p).length_le
      rw [List.dropWhile_cons, if_pos hp] at h
      simp at h
      omega
    · simp only [Bool.not_eq_true] at hp
      exact dropWhile_cons_of_neg hp

theorem head_not_of_dropWhile_eq_self {p : Char → Bool} {c : Char} {t : List Char}
    (h : (c :: t).dropWhile p = c :: t) : p c = false := by
  by_contra hp
  simp only [Bool.not_eq_false] at hp
  rw [List.dropWhile_cons, if_pos hp] at h
  have hle := (List.dropWhile_sublist (l := t) p).length_le
  have hlen := congrArg List.length h
  simp at hlen
  omega

/-- A string with clean ends is untouched by `strip`. -/
theorem strip_eq_self_of_cleanEnds {l : List Char} (h : cleanEnds l) : strip l = l := by
  obtain ⟨hne, hh, hl⟩ := h
  obtain ⟨c, t, rfl⟩ := List.exists_cons_of_ne_nil hne
  have hc : isPySpace c = false := hh c rfl
  have h1 : (c :: t).dropWhile isPySpace = c :: t := dropWhile_cons_of_neg hc
  obtain ⟨d, hd⟩ : ∃ d, (c :: t).getLast? = some d :=
    ⟨(c :: t).getLast (by simp), List.getLast?_eq_getLast _ _⟩
  have hdns : isPySpace d = false := hl d hd
  have hrev : (c :: t).reverse.head? = some d := by
    rw [List.head?_reverse]; exact hd
  obtain ⟨r, hr⟩ : ∃ r, (c :: t).reverse = d :: r := by
    cases hrevl : (c :: t).reverse with
    | nil => rw [hrevl] at hrev; simp at hrev
    | cons x xs =>
      rw [hrevl] at hrev
      simp only [List.head?_cons, Option.some.injEq] at hrev
      exact ⟨xs, by rw [hrev]⟩
  unfold strip
  rw [h1, hr, dropWhile_cons_of_neg hdns, ← hr, List.reverse_reverse]

/-- A non-empty string untouched by `strip` has clean ends. -/
theorem cleanEnds_of_strip_eq {l : List Char} (hne : l ≠ []) (h : strip l = l) :
    cleanEnds l := by
  have h2 := (List.dropWhile_sublist (l := (l.dropWhile isPySpace).reverse) isPySpace).length_le
  have h3 := (List.dropWhile_sublist (l := l) isPySpace).length_le
  have hlen : (strip l).length = l.length := by rw [h]
  unfold strip at hlen
  simp only [List.length_reverse] at hlen h2
  have hfix : l.dropWhile isPySpace = l := dropWhile_eq_self_of_length (by omega)
  have hrevfix : l.reverse.dropWhile isPySpace = l.reverse := by
    have hs : ((l.reverse.dropWhile isPySpace)).reverse = l := by
      unfold strip at h
      rw [hfix] at h
      exact h
    calc l.reverse.dropWhile isPySpace
        = (((l.reverse.dropWhile isPySpace)).reverse).reverse := by
          rw [List.reverse_reverse]
      _ = l.reverse := by rw [hs]
  refine ⟨hne, ?_, ?_⟩
  · intro c hc
    obtain ⟨x, xs, rfl⟩ := List.exists_cons_of_ne_nil hne
    simp only [List.head?_cons, Option.some.injEq] at hc
    subst hc
    exact head_not_of_dropWhile_eq_self hfix
  · intro d hd
    have hrevh : l.reverse.head? = some d := by rw [List.head?_reverse]; exact hd
    obtain ⟨r, hr⟩ : ∃ r, l.reverse = d :: r := by
      cases hrevl : l.reverse with
      | nil => rw [hrevl] at hrevh; simp at hrevh
      | cons x xs =>
        rw [hrevl] at hrevh
        simp only [List.head?_cons, Option.some.injEq] at hrevh
        exact ⟨xs, by rw [hrevh]⟩
    rw [hr] at hrevfix
    exact head_not_of_dropWhile_eq_self hrevfix

/-- Clean ends survive joining with the paragraph separator. -/
theorem cleanEnds_append {x y : List Char} (hx : cleanEnds x) (hy : cleanEnds y) :
    cleanEnds (x ++ '\n' :: '\n' :: y) := by
  obtain ⟨hxne, hxh, hxl⟩ := hx
  obtain ⟨hyne, hyh, hyl⟩ := hy
  refine ⟨by simp, ?_, ?_⟩
  · intro c hc
    rw [List.head?_append_of_ne_nil _ hxne] at hc
    exact hxh c hc
  · intro d hd
    have hsplit : x ++ '\n' :: '\n' :: y = (x ++ ['\n', '\n']) ++ y := by simp
    rw [hsplit, List.getLast?_append] at hd
    obtain ⟨e, he⟩ : ∃ e, y.getLast? = some e :=
      ⟨y.getLast hyne, List.getLast?_eq_getLast _ _⟩
    rw [he] at hd
    simp only [Option.or_some, Option.some.injEq] at hd
    subst hd
    exact hyl _ he

theorem joinPar_concat (xs : List (List Char)) (a : List Char) (h : xs ≠ []) :
    joinPar (xs ++ [a]) = joinPar xs ++ '\n' :: '\n' :: a := by
  induction xs with
  | nil => exact absurd rfl h
  | cons p ps ih =>
    cases hps : ps with
    | nil => rfl
    | cons q qs =>
      rw [List.cons_append,
          joinPar_cons _ _ (by simp [hps]),
          joinPar_cons _ _ (by simp [hps]),
          ← hps, ih (by simp [hps])]
      simp

theorem joinPar_concat_append (xs : List (List Char)) (a b : List Char) :
    joinPar (xs ++ [a ++ b]) = joinPar (xs ++ [a]) ++ b := by
  cases hxs : xs with
  | nil => rfl
  | cons p ps =>
    rw [← hxs, joinPar_concat _ _ (by simp [hxs]), joinPar_concat _ _ (by simp [hxs])]
    simp

/-- One splitter step extends the rendered text by a separator and the paragraph, keeping the open chunk clean. -/
theorem splitStep_render (maxLen : Nat) (st : SplitState) (p : List Char)
    (hcur : cleanEnds st.current) (hp : cleanEnds p) :
    cleanEnds (splitStep maxLen st p).current ∧
      render (splitStep maxLen st p) = render st ++ '\n' :: '\n' :: p := by
  have hne : st.current ≠ [] := hcur.1
  unfold splitStep render
  by_cases hcond : st.current.length + p.length + 2 > maxLen
  · rw [if_pos hcond]
    simp only [if_pos hne]
    refine ⟨hp, ?_⟩
    rw [strip_eq_self_of_cleanEnds hcur]
    exact joinPar_concat (st.chunks ++ [st.current]) p (by simp)
  · rw [if_neg hcond]
    simp only [if_pos hne]
    exact ⟨cleanEnds_append hcur hp, joinPar_concat_append _ _ _⟩

/-- The splitter loop renders exactly the paragraphs it has consumed. -/
theorem splitFold_render (maxLen : Nat) (ps : List (List Char)) (st : SplitState)
    (hcur : cleanEnds st.current) (hps : ∀ p ∈ ps, cleanEnds p) :
    cleanEnds ((ps.foldl (splitStep maxLen) st).current) ∧
      render (ps.foldl (splitStep maxLen) st) =
        render st ++ (ps.map (fun p => '\n' :: '\n' :: p)).flatten := by
  induction ps generalizing st with
  | nil => exact ⟨hcur, by simp⟩
  | cons p ps ih =>
    obtain ⟨h1, h2⟩ := splitStep_render maxLen st p hcur (hps p (by simp))
    obtain ⟨h3, h4⟩ := ih (splitStep maxLen st p) h1 (fun q hq => hps q (by simp [hq]))
    refine ⟨h3, ?_⟩
    simp only [List.foldl_cons]
    rw [h4, h2]
    simp

theorem joinPar_eq_head_append (p : List Char) (ps : List (List Char)) :
    joinPar (p :: ps) = p ++ (ps.map (fun q => '\n' :: '\n' :: q)).flatten := by
  induction ps generalizing p with
  | nil => simp [joinPar]
  | cons q qs ih =>
    rw [joinPar_cons _ _ (by simp), ih]
    simp

theorem splitStep_nil_start (maxLen : Nat) (p : List Char) :
    splitStep maxLen ⟨[], []⟩ p = ⟨[], p⟩ := by
  unfold splitStep
  split <;> simp

/-- One splitter step preserves the length bound on chunks and on the open chunk. -/
theorem splitStep_bound (maxLen : Nat) (st : SplitState) (p : List Char)
    (hcur : st.current.length ≤ maxLen)
    (hch : ∀ ch ∈ st.chunks, ch.length ≤ maxLen)
    (hp : p.length ≤ maxLen) :
    ((splitStep maxLen st p).current.length ≤ maxLen) ∧
      ∀ ch ∈ (splitStep maxLen st p).chunks, ch.length ≤ maxLen := by
  unfold splitStep
  by_cases hcond : st.current.length + p.length + 2 > maxLen
  · rw [if_pos hcond]
    refine ⟨hp, ?_⟩
    by_cases hne : st.current ≠ []
    · simp only [if_pos hne]
      intro ch hmem
      rcases List.mem_append.1 hmem with h | h
      · exact hch ch h
      · simp only [List.mem_singleton] at h
        subst h
        exact le_trans (strip_length_le _) hcur
    · simp only [if_neg hne]
      exact hch
  · rw [if_neg hcond]
    refine ⟨?_, hch⟩
    by_cases hne : st.current ≠ []
    · simp only [if_pos hne, List.length_append, List.length_cons]
      omega
    · simp only [if_neg hne, List.length_append]
      omega

/-- The splitter loop preserves the length bound. -/
theorem splitFold_bound (maxLen : Nat) (ps : List (List Char)) (st : SplitState)
    (hcur : st.current.length ≤ maxLen)
    (hch : ∀ ch ∈ st.chunks, ch.length ≤ maxLen)
    (hps : ∀ p ∈ ps, p.length ≤ maxLen) :
    ((ps.foldl (splitStep maxLen) st).current.length ≤ maxLen) ∧
      ∀ ch ∈ (ps.foldl (splitStep maxLen) st).chunks, ch.length ≤ maxLen := by
  induction ps generalizing st with
  | nil => exact ⟨hcur, hch⟩
  | cons p ps ih =>
    obtain ⟨h1, h2⟩ := splitStep_bound maxLen st p hcur hch (hps p (by simp))
    exact ih (splitStep maxLen st p) h1 h2 (fun q hq => hps q (by simp [hq]))

/-- C2 (amended): every chunk produced by `_split_long_message` has
length at most the maximum message length, provided every paragraph of
the text is itself at most that long.  The code never forces a
mid-paragraph split, so the proviso cannot be dropped. -/
theorem C2_chunk_bound (maxLen : Nat) (text : List Char)
    (hps : ∀ p ∈ splitPar text, p.length ≤ maxLen) :
    ∀ ch ∈ splitLongMessage maxLen text, ch.length ≤ maxLen := by
  unfold splitLongMessage
  by_cases hfit : text.length ≤ maxLen
  · rw [if_pos hfit]
    intro ch hch
    simp only [List.mem_singleton] at hch
    subst hch
    exact hfit
  · rw [if_neg hfit]
    obtain ⟨h1, h2⟩ :=
      splitFold_bound maxLen (splitPar text) ⟨[], []⟩ (by simp) (by simp) hps
    by_cases hne : ((splitPar text).foldl (splitStep maxLen) ⟨[], []⟩).current ≠ []
    · simp only [if_pos hne]
      intro ch hch
      rcases List.mem_append.1 hch with h | h
      · exact h2 ch h
      · simp only [List.mem_singleton] at h
        subst h
        exact le_trans (strip_length_le _) h1
    · simp only [if_neg hne]
      exact h2

/-- C2 counterexample: with maximum 5, a text that is a single
7-character paragraph is returned as one chunk of length 7 — there is
no forced mid-paragraph split, refuting the unconditional bound. -/
theorem C2_counterexample :
    ∃ ch ∈ splitLongMessage 5 ['a', 'a', 'a', 'a', 'a', 'a', 'a'], 5 < ch.length := by
  decide

/-- C2 witness: the bound theorem at a concrete two-paragraph text
with maximum 4. -/
theorem C2_witness :
    (∀ p ∈ splitPar ['a', 'b', '\n', '\n', 'c', 'd'], p.length ≤ 4) ∧
      ∀ ch ∈ splitLongMessage 4 ['a', 'b', '\n', '\n', 'c', 'd'], ch.length ≤ 4 :=
  ⟨by decide, C2_chunk_bound 4 _ (by decide)⟩

/-- C4 (amended): joining the chunks of `_split_long_message` with the
paragraph separator reconstructs the text exactly, provided every
paragraph is non-empty, has no leading or trailing whitespace, and has
length at most the maximum. -/
theorem C4_reconstruction (maxLen : Nat) (text : List Char)
    (hps : ∀ p ∈ splitPar text, p ≠ [] ∧ strip p = p ∧ p.length ≤ maxLen) :
    joinPar (splitLongMessage maxLen text) = text := by
  unfold splitLongMessage
  by_cases hfit : text.length ≤ maxLen
  · rw [if_pos hfit]
    rfl
  · rw [if_neg hfit]
    have hclean : ∀ p ∈ splitPar text, cleanEnds p := fun p hp =>
      cleanEnds_of_strip_eq (hps p hp).1 (hps p hp).2.1
    obtain ⟨p0, ps, hsp⟩ : ∃ p0 ps, splitPar text = p0 :: ps := by
      cases h : splitPar text with
      | nil => exact absurd h (splitPar_ne_nil text)
      | cons a b => exact ⟨a, b, rfl⟩
    have hcl0 : cleanEnds p0 := hclean p0 (by rw [hsp]; simp)
    obtain ⟨hfin_clean, hfin_render⟩ :=
      splitFold_render maxLen ps ⟨[], p0⟩ hcl0
        (fun q hq => hclean q (by rw [hsp]; simp [hq]))
    rw [hsp]
    simp only [List.foldl_cons, splitStep_nil_start]
    rw [if_pos hfin_clean.1, strip_eq_self_of_cleanEnds hfin_clean]
    have hgoal : joinPar ((ps.foldl (splitStep maxLen) ⟨[], p0⟩).chunks ++
        [(ps.foldl (splitStep maxLen) ⟨[], p0⟩).current]) = text := by
      show render (ps.foldl (splitStep maxLen) ⟨[], p0⟩) = text
      rw [hfin_render]
      have hr0 : render ⟨[], p0⟩ = p0 := rfl
      rw [hr0, ← joinPar_eq_head_append, ← hsp, joinPar_splitPar]
    exact hgoal

/-- C4 counterexample: no paragraph exceeds the maximum 5, yet a
paragraph with a trailing space is shortened by the `strip` in
`_split_long_message`, so reconstruction fails. -/
theorem C4_counterexample :
    (∀ p ∈ splitPar ['a', 'a', 'a', ' ', '\n', '\n', 'b', 'b'], p.length ≤ 5) ∧
      joinPar (splitLongMessage 5 ['a', 'a', 'a', ' ', '\n', '\n', 'b', 'b']) ≠
        ['a', 'a', 'a', ' ', '\n', '\n', 'b', 'b'] := by
  decide

/-- C4 witness: the reconstruction theorem at a concrete
two-paragraph text with maximum 4. -/
theorem C4_witness :
    (∀ p ∈ splitPar ['a', 'b', '\n', '\n', 'c', 'd'],
        p ≠ [] ∧ strip p = p ∧ p.length ≤ 4) ∧
      joinPar (splitLongMessage 4 ['a', 'b', '\n', '\n', 'c', 'd']) =
        ['a', 'b', '\n', '\n', 'c', 'd'] :=
  ⟨by decide, C4_reconstruction 4 _ (by decide)⟩

/-- A text of `k` paragraph separators splits into `k + 1` empty paragraphs. -/
theorem splitPar_replicate_sep (k : Nat) :
    splitPar (List.replicate (2 * k) '\n') = List.replicate (k + 1) [] := by
  induction k with
  | zero => rfl
  | succ n ih =>
    have h2 : 2 * (n + 1) = 2 * n + 1 + 1 := by ring
    rw [h2, List.replicate_succ, List.replicate_succ]
    rw [show splitPar ('\n' :: '\n' :: List.replicate (2 * n) '\n') =
          [] :: splitPar (List.replicate (2 * n) '\n') by simp [splitPar]]
    rw [ih]
    rfl

theorem splitStep_nil_nil (maxLen : Nat) :
    splitStep maxLen ⟨[], []⟩ [] = ⟨[], []⟩ := by
  unfold splitStep
  split <;> simp

/-- The splitter loop drops empty paragraphs without emitting chunks. -/
theorem splitFold_empty_pars (maxLen : Nat) (n : Nat) :
    (List.replicate n ([] : List Char)).foldl (splitStep maxLen) ⟨[], []⟩ = ⟨[], []⟩ := by
  induction n with
  | zero => rfl
  | succ m ih =>
    rw [List.replicate_succ, List.foldl_cons, splitStep_nil_nil]
    exact ih

/-- C10: for every maximum there is a non-empty text longer than the
maximum — made entirely of paragraph separators — for which
`_split_long_message` returns no chunks, so `_send_message` performs
no API call at all for it. -/
theorem C10_degenerate_text (maxLen : Nat) (ok : Attempt → Bool) (chatId : Int) :
    ∃ text : List Char, text ≠ [] ∧ maxLen < text.length ∧
      splitLongMessage maxLen text = [] ∧ sendMessage maxLen ok chatId text = [] := by
  refine ⟨List.replicate (2 * (maxLen + 1)) '\n', by simp, ?_, ?_⟩
  · simp only [List.length_replicate]
    omega
  · have hsplit : splitLongMessage maxLen (List.replicate (2 * (maxLen + 1)) '\n') = [] := by
      unfold splitLongMessage
      rw [if_neg (by simp only [List.length_replicate]; omega)]
      rw [splitPar_replicate_sep, splitFold_empty_pars]
      simp
    refine ⟨hsplit, ?_⟩
    unfold sendMessage
    rw [hsplit]
    rfl

/-- C9: `_send_message` sends every chunk once with Markdown, in
order; exactly the chunks whose Markdown call fails get one plain
retry each; the total number of API calls is the number of chunks plus
the number of Markdown failures, so a chunk whose plain retry also
fails is abandoned and the loop moves to the next chunk. -/
theorem C9_retry_discipline (maxLen : Nat) (ok : Attempt → Bool) (chatId : Int)
    (text : List Char) :
    ((sendMessage maxLen ok chatId text).filter
        (fun a => a.mode == ParseMode.markdown)).map Attempt.text =
      splitLongMessage maxLen text ∧
    ((sendMessage maxLen ok chatId text).filter
        (fun a => a.mode == ParseMode.plain)).map Attempt.text =
      (splitLongMessage maxLen text).filter
        (fun ch => !(ok ⟨chatId, ch, ParseMode.markdown⟩)) ∧
    (sendMessage maxLen ok chatId text).length =
      (splitLongMessage maxLen text).length +
        (splitLongMessage maxLen text).countP
          (fun ch => !(ok ⟨chatId, ch, ParseMode.markdown⟩)) := by
  unfold sendMessage
  generalize splitLongMessage maxLen text = chunks
  induction chunks with
  | nil => simp [sendChunks]
  | cons ch rest ih =>
    obtain ⟨ih1, ih2, ih3⟩ := ih
    by_cases hok : ok ⟨chatId, ch, ParseMode.markdown⟩
    · refine ⟨?_, ?_, ?_⟩
      · simp [sendChunks, hok, List.filter_cons, ih1]
      · simp [sendChunks, hok, List.filter_cons, ih2]
      · simp [sendChunks, hok, List.countP_cons, ih3]
        omega
    · refine ⟨?_, ?_, ?_⟩
      · simp [sendChunks, hok, List.filter_cons, ih1]
      · simp [sendChunks, hok, List.filter_cons, ih2]
      · simp [sendChunks, hok, List.countP_cons, ih3]
        omega

/-- When every dispatch succeeds, the dispatch loop emits one event per update, in order. -/
theorem dispatchAll_map (ok : Update → Bool) (us : List Update)
    (hok : ∀ u ∈ us, ok u = true) :
    dispatchAll ok us = us.map PollEvent.dispatched := by
  induction us with
  | nil => rfl
  | cons u rest ih =>
    rw [dispatchAll, if_pos (hok u (by simp)), ih (fun v hv => hok v (by simp [hv]))]
    rfl

/-- C1 counterexample: in a successful iteration over the batch with
ids 1 and 2, the cursor assignment precedes both dispatch events —
refuting the claim that the cursor is never advanced before full
dispatch of the batch. -/
theorem C1_counterexample :
    ¬ cursorAfterDispatch
        (pollIteration 0 (.success [⟨1⟩, ⟨2⟩]) (fun _ => true)).trace := by
  unfold cursorAfterDispatch
  decide

/-- C1 (amended): for a successful non-empty fetch the iteration
trace is: the fetch, then the cursor advance to last id + 1, then the
dispatches of the whole batch in batch order — cursor advancement
precedes dispatch, not the other way around. -/
theorem C1_cursor_before_dispatch (offset : Int) (us : List Update) (ok : Update → Bool)
    (hne : us ≠ []) (hok : ∀ u ∈ us, ok u = true) :
    (pollIteration offset (.success us) ok).trace =
      .fetched us :: .cursorSet (newOffset offset us) :: us.map PollEvent.dispatched := by
  obtain ⟨u, rest, rfl⟩ := List.exists_cons_of_ne_nil hne
  simp [pollIteration, dispatchAll_map _ _ hok]

/-- C1 witness: the trace theorem at the concrete batch [1, 2]. -/
theorem C1_witness :
    (pollIteration 0 (.success [⟨1⟩, ⟨2⟩]) (fun _ => true)).trace =
      .fetched [⟨1⟩, ⟨2⟩] :: .cursorSet (newOffset 0 [⟨1⟩, ⟨2⟩]) ::
        ([⟨1⟩, ⟨2⟩] : List Update).map PollEvent.dispatched :=
  C1_cursor_before_dispatch 0 [⟨1⟩, ⟨2⟩] (fun _ => true) (by decide) (by decide)

/-- A failing dispatch in the batch loop produces the 5-unit backoff sleep. -/
theorem backoff_of_dispatch_failure (ok : Update → Bool) (us : List Update) (u : Update)
    (hu : u ∈ us) (hfail : ok u = false) :
    PollEvent.backoffSleep 5 ∈ dispatchAll ok us := by
  induction us with
  | nil => cases hu
  | cons v vs ih =>
    by_cases hv : ok v = true
    · rw [dispatchAll, if_pos hv]
      rcases List.mem_cons.1 hu with rfl | hmem
      · rw [hv] at hfail; cases hfail
      · exact List.mem_cons_of_mem _ (ih hmem)
    · rw [dispatchAll, if_neg hv]
      simp

/-- C3 (amended): a fetch failure other than a timeout is caught
inside `_get_updates`: it is logged and yields an empty batch, with no
backoff pause; a normal timeout also yields an empty batch and is not
an error; the loop ends only on cancellation; the fixed 5-unit backoff
occurs only when dispatching an update raises. -/
theorem C3_failure_handling (offset : Int) (ok : Update → Bool) :
    pollIteration offset .failure ok = ⟨offset, [.fetchErrorLogged], true⟩ ∧
    pollIteration offset .timeout ok = ⟨offset, [], true⟩ ∧
    (∀ f : FetchOutcome, (pollIteration offset f ok).continues = false ↔ f = .cancelled) ∧
    (∀ us u, u ∈ us → ok u = false →
      PollEvent.backoffSleep 5 ∈ (pollIteration offset (.success us) ok).trace) := by
  refine ⟨rfl, rfl, ?_, ?_⟩
  · intro f
    cases f <;> simp [pollIteration]
  · intro us u hu hfail
    show PollEvent.backoffSleep 5 ∈
      .fetched us :: (if us.isEmpty then [] else [.cursorSet (newOffset offset us)]) ++
        dispatchAll ok us
    exact List.mem_cons_of_mem _
      (List.mem_append.2 (Or.inr (backoff_of_dispatch_failure ok us u hu hfail)))

/-- C3 counterexample: a failed fetch merely logs and yields an empty
batch — the claimed 5-unit backoff sleep does not occur. -/
theorem C3_counterexample :
    (pollIteration 0 .failure (fun _ => true)).trace = [.fetchErrorLogged] ∧
      PollEvent.backoffSleep 5 ∉ (pollIteration 0 .failure (fun _ => true)).trace := by
  decide

/-- C3 witness: the backoff conjunct at a concrete failing dispatch. -/
theorem C3_witness :
    PollEvent.backoffSleep 5 ∈ (pollIteration 0 (.success [⟨7⟩]) (fun _ => false)).trace :=
  (C3_failure_handling 0 (fun _ => false)).2.2.2 [⟨7⟩] ⟨7⟩ (by decide) rfl

/-- In an ascending batch the last update has the maximal id. -/
theorem pairwise_updateId_le_getLast :
    ∀ (us : List Update) (hne : us ≠ []),
      us.Pairwise (fun u v => u.updateId ≤ v.updateId) →
      ∀ u ∈ us, u.updateId ≤ (us.getLast hne).updateId := by
  intro us
  induction us with
  | nil => intro hne; cases hne rfl
  | cons a t ih =>
    intro hne hs u hu
    cases t with
    | nil =>
      simp only [List.mem_singleton] at hu
      subst hu
      rfl
    | cons b t2 =>
      have htne : (b :: t2) ≠ [] := by simp
      rw [List.getLast_cons htne]
      rcases List.mem_cons.1 hu with rfl | hmem
      · exact (List.pairwise_cons.1 hs).1 _ (List.getLast_mem htne)
      · exact ih htne (List.pairwise_cons.1 hs).2 u hmem

/-- C6: after a successful fetch of a non-empty ascending batch, the
cursor exceeds every id of the batch and equals some batch id plus
one — that is, max(update ids) + 1. -/
theorem C6_offset_max_plus_one (offset : Int) (us : List Update) (ok : Update → Bool)
    (hne : us ≠ [])
    (hs : us.Pairwise (fun u v => u.updateId ≤ v.updateId)) :
    (∀ u ∈ us, u.updateId < (pollIteration offset (.success us) ok).offset) ∧
      ∃ u ∈ us, (pollIteration offset (.success us) ok).offset = u.updateId + 1 := by
  have hoff : (pollIteration offset (.success us) ok).offset =
      (us.getLast hne).updateId + 1 := by
    simp [pollIteration, newOffset, List.getLast?_eq_getLast us hne]
  constructor
  · intro u hu
    rw [hoff]
    have := pairwise_updateId_le_getLast us hne hs u hu
    omega
  · exact ⟨us.getLast hne, List.getLast_mem hne, hoff⟩

/-- C6 witness: ids [101, 102, 105] leave the cursor at 106. -/
theorem C6_witness :
    (∀ u ∈ ([⟨101⟩, ⟨102⟩, ⟨105⟩] : List Update),
        u.updateId < (pollIteration 0 (.success [⟨101⟩, ⟨102⟩, ⟨105⟩]) (fun _ => true)).offset) ∧
      (∃ u ∈ ([⟨101⟩, ⟨102⟩, ⟨105⟩] : List Update),
        (pollIteration 0 (.success [⟨101⟩, ⟨102⟩, ⟨105⟩]) (fun _ => true)).offset =
          u.updateId + 1) ∧
      (pollIteration 0 (.success [⟨101⟩, ⟨102⟩, ⟨105⟩]) (fun _ => true)).offset = 106 := by
  have h := C6_offset_max_plus_one 0 [⟨101⟩, ⟨102⟩, ⟨105⟩] (fun _ => true)
    (by decide) (by decide)
  exact ⟨h.1, h.2, by decide⟩

/-- One iteration cannot decrease the cursor when the batch respects the offset contract. -/
theorem offset_le_pollIteration (offset : Int) (f : FetchOutcome) (ok : Update → Bool)
    (henv : ∀ u ∈ batchOf f, offset ≤ u.updateId) :
    offset ≤ (pollIteration offset f ok).offset := by
  cases f with
  | success us =>
    cases hus : us.getLast? with
    | none => simp [pollIteration, newOffset, hus]
    | some u =>
      have hmem : u ∈ us := List.mem_of_mem_getLast? hus
      have hle := henv u (by simpa [batchOf] using hmem)
      simp only [pollIteration, newOffset, hus]
      omega
  | timeout => exact le_refl _
  | failure => exact le_refl _
  | cancelled => exact le_refl _

/-- The cursor trace starts at the current cursor. -/
theorem offsetTrace_head (ok : Update → Bool) (offset : Int) (fs : List FetchOutcome) :
    (offsetTrace ok offset fs).head? = some offset := by
  cases fs <;> rfl

/-- C7 (amended): along any run of the polling loop whose batches
respect the remote offset contract (every delivered id is at least the
requesting cursor), the successive cursor values are non-decreasing;
empty batches, timeouts and failures leave the cursor unchanged. -/
theorem C7_monotone (ok : Update → Bool) (offset : Int) (fs : List FetchOutcome)
    (henv : envRespects ok offset fs) :
    List.Chain' (· ≤ ·) (offsetTrace ok offset fs) := by
  induction fs generalizing offset with
  | nil => simp [offsetTrace]
  | cons f fs ih =>
    obtain ⟨h1, h2⟩ := henv
    rw [offsetTrace, List.chain'_cons']
    refine ⟨?_, ih _ h2⟩
    intro y hy
    rw [offsetTrace_head] at hy
    simp only [Option.mem_some_iff] at hy
    subst hy
    exact offset_le_pollIteration offset f ok h1

/-- C7 counterexample: a batch whose id lies below the current cursor
drags the cursor from 100 down to 1, refuting monotonicity for all
inputs. -/
theorem C7_counterexample :
    (pollIteration 100 (.success [⟨0⟩]) (fun _ => true)).offset < 100 := by
  decide

/-- C7 witness: the monotonicity theorem on a concrete two-fetch run. -/
theorem C7_witness :
    List.Chain' (· ≤ ·) (offsetTrace (fun _ => true) 0 [.success [⟨5⟩], .timeout]) := by
  apply C7_monotone
  exact ⟨by decide, by decide, trivial⟩

/-- Stopping leaves a sub-pool. -/
theorem stop_fst_sublist (pool : TypingPool) (a : Int) :
    (stopTyping pool a).1.Sublist pool := by
  unfold stopTyping
  by_cases h : a ∈ poolKeys pool
  · rw [if_pos h]
    exact List.filter_sublist pool
  · rw [if_neg h]

/-- After `_stop_typing(a)` the id `a` is gone from the pool. -/
theorem stop_removes (pool : TypingPool) (a : Int) :
    a ∉ poolKeys (stopTyping pool a).1 := by
  unfold stopTyping
  by_cases h : a ∈ poolKeys pool
  · rw [if_pos h]
    intro hmem
    obtain ⟨e, he, heq⟩ := List.mem_map.1 hmem
    have hf := (List.mem_filter.1 he).2
    rw [heq] at hf
    simp at hf
  · rw [if_neg h]
    exact h

/-- Housekeeping leaves a sub-pool of the stopped pool. -/
theorem maintained_sublist (K : Nat) (pool : TypingPool) (counter : Nat) (a : Int) :
    (maintainedPool K pool counter a).Sublist (stopTyping pool a).1 := by
  unfold maintainedPool
  by_cases h : counter + 1 ≥ K
  · rw [if_pos h]
    exact List.filter_sublist _
  · rw [if_neg h]

/-- Capacity enforcement leaves a sub-pool. -/
theorem enforced_sublist (M : Nat) (p : TypingPool) :
    (enforcedPool M p).1.Sublist p := by
  unfold enforcedPool
  by_cases h1 : p.length ≥ M
  · rw [if_pos h1]
    by_cases h2 : (cleanupTypingTasks p).length ≥ M
    · simp only [if_pos h2]
      exact (List.drop_sublist _ _).trans (List.filter_sublist p)
    · simp only [if_neg h2]
      exact List.filter_sublist p
  · rw [if_neg h1]

/-- The pool after `_start_typing` is the enforced pool with the fresh task appended. -/
theorem startTyping_pool_structure (K M : Nat) (pool : TypingPool) (counter : Nat)
    (a : Int) :
    (startTyping K M pool counter a).pool =
      (enforcedPool M (maintainedPool K pool counter a)).1 ++ [(a, false)] := rfl

/-- The cancellations of `_start_typing` are the initial stop followed by the evictions. -/
theorem startTyping_cancelled_structure (K M : Nat) (pool : TypingPool) (counter : Nat)
    (a : Int) :
    (startTyping K M pool counter a).cancelled =
      (stopTyping pool a).2 ++ (enforcedPool M (maintainedPool K pool counter a)).2 := rfl

/-- `_start_typing` preserves distinctness of conversation ids. -/
theorem startTyping_nodup (K M : Nat) (pool : TypingPool) (counter : Nat) (a : Int)
    (hnd : (poolKeys pool).Nodup) :
    (poolKeys (startTyping K M pool counter a).pool).Nodup := by
  have hsub2 :
      (enforcedPool M (maintainedPool K pool counter a)).1.Sublist (stopTyping pool a).1 :=
    (enforced_sublist M _).trans (maintained_sublist K pool counter a)
  have hsub : (enforcedPool M (maintainedPool K pool counter a)).1.Sublist pool :=
    hsub2.trans (stop_fst_sublist pool a)
  have hnd2 : (poolKeys (enforcedPool M (maintainedPool K pool counter a)).1).Nodup :=
    List.Nodup.sublist (hsub.map Prod.fst) hnd
  have hnotin : a ∉ poolKeys (enforcedPool M (maintainedPool K pool counter a)).1 := by
    intro hmem
    exact stop_removes pool a ((hsub2.map Prod.fst).subset hmem)
  rw [startTyping_pool_structure]
  unfold poolKeys at *
  rw [List.map_append]
  rw [List.nodup_append]
  refine ⟨hnd2, by simp, ?_⟩
  intro x hx hx2
  simp only [List.map_cons, List.map_nil, List.mem_singleton] at hx2
  subst hx2
  exact hnotin hx

/-- Distinct keys mean at most one entry per conversation id. -/
theorem countP_key_le_one (pool : TypingPool) (hnd : (poolKeys pool).Nodup) (id : Int) :
    pool.countP (fun e => e.1 == id) ≤ 1 := by
  have h := List.nodup_iff_count_le_one.1 hnd id
  rw [List.count, poolKeys, List.countP_map] at h
  exact h

/-- A second consecutive `_stop_typing` on the same id is a no-op. -/
theorem stop_stop_noop (pool : TypingPool) (b : Int) :
    stopTyping (stopTyping pool b).1 b = ((stopTyping pool b).1, []) := by
  have h := stop_removes pool b
  generalize hq : (stopTyping pool b).1 = q at h ⊢
  unfold stopTyping
  rw [if_neg h]

/-- `_start_typing` on an id with an existing task cancels that task first. -/
theorem start_cancels_existing (K M : Nat) (pool : TypingPool) (counter : Nat) (a : Int)
    (h : a ∈ poolKeys pool) :
    a ∈ (startTyping K M pool counter a).cancelled := by
  rw [startTyping_cancelled_structure]
  refine List.mem_append.2 (Or.inl ?_)
  unfold stopTyping
  rw [if_pos h]
  simp

/-- C8: from any pool with distinct conversation ids, `_start_typing`
and `_stop_typing` preserve distinctness, so at most one typing task
per conversation exists at any observation point; `start` on an id
with an existing task first cancels it; `stop` immediately followed by
another `stop` on the same id leaves the pool unchanged. -/
theorem C8_unique_task (K M : Nat) (pool : TypingPool) (counter : Nat) (a b id : Int)
    (hnd : (poolKeys pool).Nodup) :
    (poolKeys (startTyping K M pool counter a).pool).Nodup ∧
    (poolKeys (stopTyping pool b).1).Nodup ∧
    ((startTyping K M pool counter a).pool.countP (fun e => e.1 == id) ≤ 1) ∧
    ((stopTyping pool b).1.countP (fun e => e.1 == id) ≤ 1) ∧
    (a ∈ poolKeys pool → a ∈ (startTyping K M pool counter a).cancelled) ∧
    stopTyping (stopTyping pool b).1 b = ((stopTyping pool b).1, []) := by
  have hnd1 := startTyping_nodup K M pool counter a hnd
  have hnd2 : (poolKeys (stopTyping pool b).1).Nodup :=
    List.Nodup.sublist ((stop_fst_sublist pool b).map Prod.fst) hnd
  exact ⟨hnd1, hnd2, countP_key_le_one _ hnd1 id, countP_key_le_one _ hnd2 id,
    fun h => start_cancels_existing K M pool counter a h, stop_stop_noop pool b⟩

/-- C8 witness: the invariants at a concrete two-entry pool. -/
theorem C8_witness :
    (poolKeys (startTyping 10 5 [(1, false), (2, false)] 0 1).pool).Nodup ∧
      ((startTyping 10 5 [(1, false), (2, false)] 0 1).pool.countP
        (fun e => e.1 == (1 : Int)) ≤ 1) ∧
      (1 : Int) ∈ (startTyping 10 5 [(1, false), (2, false)] 0 1).cancelled ∧
      stopTyping (stopTyping [(1, false), (2, false)] 2).1 2 =
        ((stopTyping [(1, false), (2, false)] 2).1, []) := by
  have h := C8_unique_task 10 5 [(1, false), (2, false)] 0 1 2 1 (by decide)
  exact ⟨h.1, h.2.2.1, h.2.2.2.2.1 (by decide), h.2.2.2.2.2⟩

/-- C5 counterexample: a pool at the cap 3 whose tasks are all
finished is emptied by the forced cleanup sweep, so nothing is evicted
or cancelled — refuting the claim that a start on a full pool always
evicts at least one entry. -/
theorem C5_counterexample :
    3 ≤ ([((1 : Int), true), (2, true), (3, true)] : TypingPool).length ∧
      (startTyping 10 3 [(1, true), (2, true), (3, true)] 0 4).cancelled = [] := by
  decide

/-- C5 (amended): from any reachable pool (size at most M; size = M
is at capacity), `_start_typing` leaves the size at most M; the forced
eviction count is at least one and at most 10 percent plus one; and
when the pool is still at the cap after the forced sweep, exactly the
oldest `forcedEvictCount` surviving entries are cancelled and removed,
in insertion order. -/
theorem C5_capacity (K M : Nat) (pool : TypingPool) (counter : Nat) (a : Int)
    (hM : 1 ≤ M) (hlen : pool.length ≤ M) :
    (startTyping K M pool counter a).pool.length ≤ M ∧
    (1 ≤ forcedEvictCount pool.length ∧
      forcedEvictCount pool.length ≤ pool.length / 10 + 1) ∧
    (M ≤ (maintainedPool K pool counter a).length →
      M ≤ (cleanupTypingTasks (maintainedPool K pool counter a)).length →
      (startTyping K M pool counter a).cancelled =
        (stopTyping pool a).2 ++
          ((cleanupTypingTasks (maintainedPool K pool counter a)).take
            (forcedEvictCount
              (cleanupTypingTasks (maintainedPool K pool counter a)).length)).map
            Prod.fst ∧
      (startTyping K M pool counter a).pool =
        (cleanupTypingTasks (maintainedPool K pool counter a)).drop
            (forcedEvictCount
              (cleanupTypingTasks (maintainedPool K pool counter a)).length) ++
          [(a, false)]) := by
  have hp2 : (maintainedPool K pool counter a).length ≤ pool.length :=
    ((maintained_sublist K pool counter a).trans (stop_fst_sublist pool a)).length_le
  have hps : (cleanupTypingTasks (maintainedPool K pool counter a)).length ≤
      (maintainedPool K pool counter a).length :=
    (List.filter_sublist _).length_le
  refine ⟨?_, ⟨le_max_left _ _, max_le (by omega) (by omega)⟩, ?_⟩
  · rw [startTyping_pool_structure, List.length_append]
    unfold enforcedPool
    by_cases h1 : (maintainedPool K pool counter a).length ≥ M
    · rw [if_pos h1]
      by_cases h2 : (cleanupTypingTasks (maintainedPool K pool counter a)).length ≥ M
      · simp only [if_pos h2, List.length_drop, List.length_cons, List.length_nil]
        have hfec : 1 ≤ forcedEvictCount
            (cleanupTypingTasks (maintainedPool K pool counter a)).length :=
          le_max_left _ _
        omega
      · simp only [if_neg h2, List.length_cons, List.length_nil]
        omega
    · rw [if_neg h1]
      simp only [List.length_cons, List.length_nil]
      omega
  · intro h1 h2
    constructor
    · rw [startTyping_cancelled_structure]
      unfold enforcedPool
      rw [if_pos h1, if_pos h2]
    · rw [startTyping_pool_structure]
      unfold enforcedPool
      rw [if_pos h1, if_pos h2]

/-- C5 witness: a start on a concrete full pool of three live tasks
evicts exactly the oldest entry. -/
theorem C5_witness :
    (startTyping 10 3 [(1, false), (2, false), (3, false)] 0 4).pool.length ≤ 3 ∧
      (startTyping 10 3 [(1, false), (2, false), (3, false)] 0 4).cancelled = [1] :=
  ⟨(C5_capacity 10 3 [(1, false), (2, false), (3, false)] 0 4 (by decide) (by decide)).1,
    by decide⟩

end Telegram
